import Mathlib

/-!
Shallow embedding of the wordle-solver core (TypeScript) in Lean 4.

Modules embedded, with their source files:
* `src/src/utils/feedback.ts` — `calculateWordleFeedback`, `isCorrectGuess`
* `src/core/guess.ts` (legacy module) — `getWordleReturnValue`
* `src/core/filter.ts` — `filterWordsByFeedback`,
  `getAvailableWordsFromMultipleFeedbacks`
* `src/core/entropy.ts` — `calculateLetterStateProbabilities`,
  `calculateAverageEntropy`, `findHighestEntropyGuess`
* `src/src/services/solver.ts` — `WordleSolver.solve`, `selectBestGuess`

JavaScript strings are modelled as `List Char`; thrown `Error`s are modelled
by `Except String`; JS numbers are modelled as `ℚ` for the exact probability
arithmetic and `ℝ` where `Math.log2` is involved.  The word list, which the
code reads from an external CSV file, is passed explicitly as a parameter.
-/

/-- States of a letter in a Wordle guess (enum `LetterState` in `types.ts`). -/
inductive LetterState
  | correct
  | present
  | absent
  deriving DecidableEq, Repr

/-- Feedback for a single letter position (`LetterFeedback` in `types.ts`). -/
structure LetterFeedback where
  letter : Char
  state : LetterState
  deriving DecidableEq, Repr

/-- A word, i.e. a JS string viewed as its character list. -/
abbrev Word := List Char

/-- Complete feedback for a guess (`GuessFeedback` in `types.ts`, a 5-tuple). -/
abbrev GuessFeedback := List LetterFeedback

/-- Error message thrown by `calculateWordleFeedback` (feedback.ts line 11). -/
def lengthErrorMsg : String := "Both guess and target must be exactly 5 letters"

/-- First pass of `calculateWordleFeedback` (feedback.ts lines 20-34): walk the
guess and target in lockstep carrying the position `i`; positions with equal
letters are marked `correct` and their index recorded in `usedTargetIndices`,
all others are provisionally `absent`. -/
def firstPass : List Char → List Char → Nat → GuessFeedback × List Nat
  | gc :: gr, tc :: tr, i =>
    let rest := firstPass gr tr (i + 1)
    if gc = tc then (⟨gc, LetterState.correct⟩ :: rest.1, i :: rest.2)
    else (⟨gc, LetterState.absent⟩ :: rest.1, rest.2)
  | _, _, _ => ([], [])

/-- Inner scan of the second pass (feedback.ts lines 40-45): find the first
target index `j < 5` that is not yet consumed and holds the letter `c`. -/
def findUnusedIndex (t : List Char) (used : List Nat) (c : Char) : Option Nat :=
  (List.range 5).find? (fun j => !(used.contains j) && (t.get? j == some c))

/-- Second pass of `calculateWordleFeedback` (feedback.ts lines 36-48): each
position still `absent` is upgraded to `present` when an unconsumed target
position holds its letter, consuming that position. -/
def secondPass (t : List Char) : GuessFeedback → List Nat → GuessFeedback
  | [], _ => []
  | fb :: rest, used =>
    if fb.state = LetterState.absent then
      match findUnusedIndex t used fb.letter with
      | some j => ⟨fb.letter, LetterState.present⟩ :: secondPass t rest (j :: used)
      | none => fb :: secondPass t rest used
    else fb :: secondPass t rest used

/-- Embedding of `calculateWordleFeedback` (src/src/utils/feedback.ts lines
9-51): guard both lengths, lowercase both words, then run the two passes. -/
def calculateWordleFeedback (guess target : Word) : Except String GuessFeedback :=
  if guess.length ≠ 5 ∨ target.length ≠ 5 then Except.error lengthErrorMsg
  else
    let g := guess.map Char.toLower
    let t := target.map Char.toLower
    let p := firstPass g t 0
    Except.ok (secondPass t p.1 p.2)

/-- Embedding of `isCorrectGuess` (feedback.ts lines 56-58). -/
def isCorrectGuess (feedback : GuessFeedback) : Bool :=
  feedback.all (fun f => decide (f.state = LetterState.correct))

/-- First pass of the legacy `getWordleReturnValue` (src/core/guess.ts lines
56-70), identical algorithm to `firstPass`. -/
def legacyFirstPass : List Char → List Char → Nat → GuessFeedback × List Nat
  | gc :: gr, tc :: tr, i =>
    let rest := legacyFirstPass gr tr (i + 1)
    if gc = tc then (⟨gc, LetterState.correct⟩ :: rest.1, i :: rest.2)
    else (⟨gc, LetterState.absent⟩ :: rest.1, rest.2)
  | _, _, _ => ([], [])

/-- Inner scan of the legacy second pass (guess.ts lines 76-81). -/
def legacyFindUnusedIndex (t : List Char) (used : List Nat) (c : Char) : Option Nat :=
  (List.range 5).find? (fun j => !(used.contains j) && (t.get? j == some c))

/-- Second pass of the legacy `getWordleReturnValue` (guess.ts lines 72-84). -/
def legacySecondPass (t : List Char) : GuessFeedback → List Nat → GuessFeedback
  | [], _ => []
  | fb :: rest, used =>
    if fb.state = LetterState.absent then
      match legacyFindUnusedIndex t used fb.letter with
      | some j => ⟨fb.letter, LetterState.present⟩ :: legacySecondPass t rest (j :: used)
      | none => fb :: legacySecondPass t rest used
    else fb :: legacySecondPass t rest used

/-- Embedding of the legacy `getWordleReturnValue` (src/core/guess.ts lines
45-87). -/
def getWordleReturnValue (guess target : Word) : Except String GuessFeedback :=
  if guess.length ≠ 5 ∨ target.length ≠ 5 then Except.error lengthErrorMsg
  else
    let g := guess.map Char.toLower
    let t := target.map Char.toLower
    let p := legacyFirstPass g t 0
    Except.ok (legacySecondPass t p.1 p.2)

/-- A recorded guess with its feedback (`GuessWithFeedback` in `types.ts`). -/
structure GuessWithFeedback where
  guess : Word
  feedback : GuessFeedback
  deriving DecidableEq, Repr

/-- The state comparison performed inside `filterWordsByFeedback`
(filter.ts lines 21-26): the candidate survives when its test feedback agrees
with the recorded feedback at every one of the 5 positions, which for 5-entry
patterns is equality of the state sequences. -/
def feedbackStatesMatch (testFeedback feedback : GuessFeedback) : Bool :=
  decide (testFeedback.map LetterFeedback.state = feedback.map LetterFeedback.state)

/-- Embedding of `filterWordsByFeedback` (src/core/filter.ts lines 12-28):
keep the words whose feedback against the guess has the same state pattern;
a thrown length error from `calculateWordleFeedback` aborts the whole filter,
first offending word first, exactly as a JS exception would. -/
def filterWordsByFeedback : List Word → Word → GuessFeedback → Except String (List Word)
  | [], _, _ => Except.ok []
  | w :: rest, guess, feedback => do
    let testFeedback ← calculateWordleFeedback guess w
    let others ← filterWordsByFeedback rest guess feedback
    if feedbackStatesMatch testFeedback feedback then Except.ok (w :: others)
    else Except.ok others

/-- The progressive filtering loop of `getAvailableWordsFromMultipleFeedbacks`
(filter.ts lines 40-51), including the early exit once no words remain. -/
def applyFeedbacks : List Word → List GuessWithFeedback → Except String (List Word)
  | ws, [] => Except.ok ws
  | ws, gwf :: rest => do
    let ws' ← filterWordsByFeedback ws gwf.guess gwf.feedback
    if ws'.isEmpty then Except.ok [] else applyFeedbacks ws' rest

/-- Embedding of `getAvailableWordsFromMultipleFeedbacks` (src/core/filter.ts
lines 35-54); the externally loaded word list is the `wordList` parameter. -/
def getAvailableWordsFromMultipleFeedbacks (wordList : List Word)
    (feedbacks : List GuessWithFeedback) : Except String (List Word) :=
  if feedbacks.isEmpty then Except.ok wordList
  else applyFeedbacks wordList feedbacks

/-- Statistics attached to one feedback pattern (`GuessFeedbackInformations`
in `types.ts`).  The `selfInformation` field is optional in the TS type and is
always populated by `calculateLetterStateProbabilities`. -/
structure GuessFeedbackInformations where
  guessFeedback : GuessFeedback
  probability : ℚ
  selfInformation : Option ℝ
  matchingWords : List Word

/-- One step of the grouping performed with the two `Map`s in
`calculateLetterStateProbabilities` (entropy.ts lines 104-129): append the
target to the group of its feedback pattern, first-seen pattern order
preserved.  Keys are the feedback values themselves: within one call every
feedback carries the same letters (the lowercased guess), so the string key
`letter:state|...` used by the code distinguishes exactly the state
sequences, i.e. the feedback values. -/
def insertTarget (acc : List (GuessFeedback × List Word)) (fb : GuessFeedback)
    (w : Word) : List (GuessFeedback × List Word) :=
  match acc with
  | [] => [(fb, [w])]
  | g :: rest => if g.1 = fb then (g.1, g.2 ++ [w]) :: rest
    else g :: insertTarget rest fb w

/-- The grouping loop of `calculateLetterStateProbabilities` (entropy.ts lines
104-129): compute the feedback of the guess against every candidate target and
group the targets by feedback pattern. -/
def groupTargets (guess : Word) : List Word → List (GuessFeedback × List Word) →
    Except String (List (GuessFeedback × List Word))
  | [], acc => Except.ok acc
  | t :: rest, acc => do
    let fb ← calculateWordleFeedback guess t
    groupTargets guess rest (insertTarget acc fb t)

/-- Self-information of a pattern probability (entropy.ts line 142):
`probability > 0 ? -Math.log2(probability) : 0`. -/
noncomputable def selfInformationOf (probability : ℚ) : ℝ :=
  if 0 < probability then -(Real.logb 2 (probability : ℝ)) else 0

/-- The final sort of `calculateLetterStateProbabilities` (entropy.ts line
147): stable sort by descending probability. -/
def sortByProbabilityDesc (l : List GuessFeedbackInformations) :
    List GuessFeedbackInformations :=
  List.insertionSort (fun a b => b.probability ≤ a.probability) l

/-- Embedding of `calculateLetterStateProbabilities` (src/core/entropy.ts
lines 99-150): group the candidate targets by feedback pattern, then derive
probability `count / totalWords` and self-information per group, sorted by
descending probability. -/
noncomputable def calculateLetterStateProbabilities (guess : Word)
    (words : List Word) : Except String (List GuessFeedbackInformations) := do
  let groups ← groupTargets guess words []
  let totalWords : ℚ := (words.length : ℚ)
  let result := groups.map (fun g =>
    let probability : ℚ := (g.2.length : ℚ) / totalWords
    { guessFeedback := g.1, probability := probability,
      selfInformation := some (selfInformationOf probability),
      matchingWords := g.2 })
  Except.ok (sortByProbabilityDesc result)

/-- Embedding of `calculateAverageEntropy` (src/core/entropy.ts lines
158-170): the weighted sum `Σ probability * selfInformation` over the pattern
statistics, skipping entries with no `selfInformation` as the code does. -/
noncomputable def calculateAverageEntropy (guess : Word) (words : List Word) :
    Except String ℝ := do
  let probabilityData ← calculateLetterStateProbabilities guess words
  let weightedSum := probabilityData.foldl (fun acc item =>
    match item.selfInformation with
    | some s => acc + (item.probability : ℝ) * s
    | none => acc) 0
  Except.ok weightedSum

/-- Result record of `findHighestEntropyGuess` (`HighestEntropyResult` in
`types.ts`). -/
structure HighestEntropyResult where
  guess : Word
  averageEntropy : ℝ

/-- Error message thrown by `findHighestEntropyGuess` (entropy.ts line 193). -/
def noValidWordsMsg : String := "No valid words found in word list"

/-- Embedding of `findHighestEntropyGuess` (src/core/entropy.ts lines
177-197): scan the pool keeping the first word of maximal average entropy,
starting from the sentinel (empty word, entropy -1); an empty scan leaves the
sentinel and raises the error. -/
noncomputable def findHighestEntropyGuess (words : List Word) :
    Except String HighestEntropyResult := do
  let best ← words.foldlM (fun (acc : Word × ℝ) w => do
    let entropy ← calculateAverageEntropy w words
    if acc.2 < entropy then Except.ok (w, entropy) else Except.ok acc)
    (([] : Word), (-1 : ℝ))
  if best.1 = [] then Except.error noValidWordsMsg
  else Except.ok ⟨best.1, best.2⟩

/-- A recorded solving attempt (`GuessAttempt` in `types.ts`). -/
structure GuessAttempt where
  guess : Word
  feedback : GuessFeedback
  remainingWords : Nat
  deriving DecidableEq, Repr

/-- The result of `WordleSolver.solve` (`SolveResult` in `types.ts`). -/
structure SolveResult where
  attempts : List GuessAttempt
  solved : Bool
  targetWord : Word
  deriving DecidableEq, Repr

/-- The hardcoded opening guess (solver.ts line 10). -/
def optimalFirstGuess : Word := "slate".toList

/-- Error message thrown by `WordleSolver.solve` (solver.ts line 20). -/
def targetLengthErrorMsg : String := "Target word must be exactly 5 letters"

/-- Embedding of `WordleSolver.selectBestGuess` (src/src/services/solver.ts
lines 68-82): attempt 0 returns the hardcoded opening, a singleton candidate
set returns its sole word, otherwise the highest-entropy word of the pool. -/
noncomputable def selectBestGuess (attemptNumber : Nat)
    (availableWords : List Word) : Except String Word :=
  if attemptNumber = 0 then Except.ok optimalFirstGuess
  else match availableWords with
    | [w] => Except.ok w
    | _ => do
      let best ← findHighestEntropyGuess availableWords
      Except.ok best.guess

/-- The attempt loop of `WordleSolver.solve` (solver.ts lines 28-53), by
recursion on the remaining attempt budget (`fuel = maxAttempts - attempt`):
filter candidates by the accumulated history, pick the guess, score it against
the target, append the record (guess uppercased) and stop as soon as the
feedback is all-correct. -/
noncomputable def solveLoop (wordList : List Word) (target : Word) :
    Nat → Nat → List GuessWithFeedback → List GuessAttempt →
    Except String (List GuessAttempt × Bool)
  | 0, _, _, attempts => Except.ok (attempts, false)
  | fuel + 1, attempt, feedbackHistory, attempts => do
    let availableWords ← getAvailableWordsFromMultipleFeedbacks wordList feedbackHistory
    let guess ← selectBestGuess attempt availableWords
    let feedback ← calculateWordleFeedback guess target
    let solved := isCorrectGuess feedback
    let history' := feedbackHistory ++ [⟨guess, feedback⟩]
    let remaining ← if solved then Except.ok 0 else do
      let after ← getAvailableWordsFromMultipleFeedbacks wordList history'
      Except.ok after.length
    let attempts' := attempts ++ [⟨guess.map Char.toUpper, feedback, remaining⟩]
    if solved then Except.ok (attempts', true)
    else solveLoop wordList target fuel (attempt + 1) history' attempts'

/-- Embedding of `WordleSolver.solve` (src/src/services/solver.ts lines
18-60): guard the target length, lowercase the target, run the attempt loop
and package the trace with the uppercased target. -/
noncomputable def solve (wordList : List Word) (targetWord : Word)
    (maxAttempts : Nat) : Except String SolveResult :=
  if targetWord.length ≠ 5 then Except.error targetLengthErrorMsg
  else
    let target := targetWord.map Char.toLower
    (solveLoop wordList target maxAttempts 0 [] []).map
      (fun r => ⟨r.1, r.2, target.map Char.toUpper⟩)

/-! ### Generic helpers about `Except` -/

/-- Bind on a successful `Except` computation reduces to its continuation. -/
@[simp] theorem exceptBind_ok {ε α β : Type _} (a : α) (f : α → Except ε β) :
    (Except.ok a >>= f : Except ε β) = f a := rfl

/-- Bind on a failed `Except` computation keeps the error. -/
@[simp] theorem exceptBind_error {ε α β : Type _} (e : ε) (f : α → Except ε β) :
    (Except.error e >>= f : Except ε β) = Except.error e := rfl

/-- Inversion for bind: a successful bind comes from a successful first step. -/
theorem bind_eq_ok_iff {ε α β : Type _} (x : Except ε α) (f : α → Except ε β)
    (b : β) : (x >>= f) = Except.ok b ↔ ∃ a, x = Except.ok a ∧ f a = Except.ok b := by
  cases x with
  | ok a =>
    constructor
    · intro h
      exact ⟨a, rfl, h⟩
    · rintro ⟨a', ha', hf⟩
      cases ha'
      exact hf
  | error e =>
    constructor
    · intro h
      exact absurd h (by simp)
    · rintro ⟨a', ha', _⟩
      cases ha'

/-! ### Basic facts about the feedback engine -/

/-- With two 5-letter inputs the length guard passes and
`calculateWordleFeedback` succeeds. -/
theorem calculateWordleFeedback_ok (g t : Word) (hg : g.length = 5)
    (ht : t.length = 5) :
    calculateWordleFeedback g t =
      Except.ok (secondPass (t.map Char.toLower)
        (firstPass (g.map Char.toLower) (t.map Char.toLower) 0).1
        (firstPass (g.map Char.toLower) (t.map Char.toLower) 0).2) := by
  simp [calculateWordleFeedback, hg, ht]

/-- With an input of the wrong length `calculateWordleFeedback` fails with
the length error. -/
theorem calculateWordleFeedback_error (g t : Word)
    (h : g.length ≠ 5 ∨ t.length ≠ 5) :
    calculateWordleFeedback g t = Except.error lengthErrorMsg := by
  unfold calculateWordleFeedback
  rw [if_pos h]

/-! ### The legacy feedback module computes the same function -/

/-- The legacy inner scan is the same function as the rewritten one. -/
theorem legacyFindUnusedIndex_eq : legacyFindUnusedIndex = findUnusedIndex := rfl

/-- The legacy first pass agrees with the rewritten first pass. -/
theorem legacyFirstPass_eq : ∀ (g t : List Char) (i : Nat),
    legacyFirstPass g t i = firstPass g t i := by
  intro g
  induction g with
  | nil =>
    intro t i
    cases t <;> rfl
  | cons gc gr ih =>
    intro t i
    cases t with
    | nil => rfl
    | cons tc tr => simp only [legacyFirstPass, firstPass, ih]

/-- The legacy second pass agrees with the rewritten second pass. -/
theorem legacySecondPass_eq (t : List Char) : ∀ (fbs : GuessFeedback)
    (used : List Nat), legacySecondPass t fbs used = secondPass t fbs used := by
  intro fbs
  induction fbs with
  | nil =>
    intro used
    rfl
  | cons fb rest ih =>
    intro used
    simp only [legacySecondPass, secondPass, legacyFindUnusedIndex_eq, ih]

/-! ### Claim C1 — duplicate-letter law -/

/-- C1: for guess "ALLEY" against target "PLANE", `calculateWordleFeedback`
returns exactly the pattern [Present, Correct, Absent, Present, Absent]: the
L in the correct position is reserved in the first pass, so the second L finds
no remaining unconsumed L in the target and is marked Absent. -/
theorem alley_plane_duplicate_letter_law :
    calculateWordleFeedback "alley".toList "plane".toList =
      Except.ok [⟨'a', LetterState.present⟩, ⟨'l', LetterState.correct⟩,
        ⟨'l', LetterState.absent⟩, ⟨'e', LetterState.present⟩,
        ⟨'y', LetterState.absent⟩] := by rfl

/-! ### Claim C9 — the legacy and rewritten feedback modules agree -/

/-- C9: for every pair of guess and target the legacy `getWordleReturnValue`
returns the same feedback (same letter and state at every position, and the
same error on bad lengths) as the rewritten `calculateWordleFeedback`. -/
theorem legacy_feedback_agrees (g t : Word) :
    getWordleReturnValue g t = calculateWordleFeedback g t := by
  unfold getWordleReturnValue calculateWordleFeedback
  simp only [legacyFirstPass_eq, legacySecondPass_eq]

/-! ### Claim C7 — determinism of the solve pipeline -/

/-- C7: `solve` is deterministic.  The whole pipeline is embedded as a pure
function of the word list, the target and the attempt budget (no randomness
exists anywhere in the code), so two calls with identical inputs return
identical `SolveResult` traces. -/
theorem solve_deterministic (wordList : List Word) (targetWord : Word)
    (maxAttempts : Nat) :
    solve wordList targetWord maxAttempts = solve wordList targetWord maxAttempts := rfl

/-! ### Claim C3 — scoring an empty candidate set -/

/-- C3 counterexample: scoring against an empty candidate set does NOT raise
any error: `calculateLetterStateProbabilities` returns the empty list of
statistics and `calculateAverageEntropy` returns 0 (in the code, an empty
`wordList` argument is truthy, the grouping loop is skipped, and no
`EmptyCandidateSet` error exists anywhere). -/
theorem empty_candidates_no_error :
    calculateLetterStateProbabilities "slate".toList [] = Except.ok [] ∧
      calculateAverageEntropy "slate".toList [] = Except.ok 0 := ⟨rfl, rfl⟩

/-- C3 amended: for every guess (of any length), scoring an empty candidate
list returns a value instead of failing: the probability list is empty and
the average entropy is 0. -/
theorem empty_candidates_returns_value (g : Word) :
    calculateLetterStateProbabilities g [] = Except.ok [] ∧
      calculateAverageEntropy g [] = Except.ok 0 := ⟨rfl, rfl⟩

/-! ### Claim C6 — candidate narrowing is idempotent -/

/-- Soundness of the filter: every surviving word produces the recorded
state pattern. -/
theorem filterWordsByFeedback_sound : ∀ (ws : List Word) (g : Word)
    (fb : GuessFeedback) (ws' : List Word),
    filterWordsByFeedback ws g fb = Except.ok ws' →
    ∀ w ∈ ws', ∃ tf, calculateWordleFeedback g w = Except.ok tf ∧
      feedbackStatesMatch tf fb = true := by
  intro ws
  induction ws with
  | nil =>
    intro g fb ws' h w hw
    simp only [filterWordsByFeedback] at h
    cases h
    simp at hw
  | cons x rest ih =>
    intro g fb ws' h w hw
    simp only [filterWordsByFeedback] at h
    rw [bind_eq_ok_iff] at h
    obtain ⟨tf, htf, h⟩ := h
    rw [bind_eq_ok_iff] at h
    obtain ⟨others, hothers, h⟩ := h
    by_cases hm : feedbackStatesMatch tf fb = true
    · rw [if_pos hm] at h
      injection h with h
      subst h
      rw [List.mem_cons] at hw
      rcases hw with rfl | hw
      · exact ⟨tf, htf, hm⟩
      · exact ih g fb others hothers w hw
    · rw [if_neg hm] at h
      injection h with h
      subst h
      exact ih g fb others hothers w hw

/-- Completeness of the filter: a list all of whose words produce the recorded
state pattern passes through the filter unchanged. -/
theorem filterWordsByFeedback_complete : ∀ (ws : List Word) (g : Word)
    (fb : GuessFeedback),
    (∀ w ∈ ws, ∃ tf, calculateWordleFeedback g w = Except.ok tf ∧
      feedbackStatesMatch tf fb = true) →
    filterWordsByFeedback ws g fb = Except.ok ws := by
  intro ws
  induction ws with
  | nil =>
    intro g fb _
    rfl
  | cons x rest ih =>
    intro g fb h
    obtain ⟨tf, htf, hm⟩ := h x (by simp)
    simp only [filterWordsByFeedback, htf, exceptBind_ok]
    rw [ih g fb (fun w hw => h w (List.mem_cons_of_mem x hw))]
    simp [hm]

/-- C6: candidate narrowing is idempotent: whenever `filterWordsByFeedback`
succeeds, applying it again to its own output returns that output
unchanged. -/
theorem filterWordsByFeedback_idempotent (ws : List Word) (g : Word)
    (fb : GuessFeedback) (ws' : List Word)
    (h : filterWordsByFeedback ws g fb = Except.ok ws') :
    filterWordsByFeedback ws' g fb = Except.ok ws' :=
  filterWordsByFeedback_complete ws' g fb (filterWordsByFeedback_sound ws g fb ws' h)

/-- The all-correct pattern for the word "house", used as concrete data. -/
def houseAllCorrect : GuessFeedback :=
  [⟨'h', LetterState.correct⟩, ⟨'o', LetterState.correct⟩,
   ⟨'u', LetterState.correct⟩, ⟨'s', LetterState.correct⟩,
   ⟨'e', LetterState.correct⟩]

/-- Witness for C6 at concrete data: filtering ["house", "mouse"] with the
all-correct pattern of "house" keeps exactly ["house"], and refiltering that
output returns it unchanged. -/
theorem filterWordsByFeedback_idempotent_witness :
    filterWordsByFeedback ["house".toList] "house".toList houseAllCorrect =
      Except.ok ["house".toList] :=
  filterWordsByFeedback_idempotent ["house".toList, "mouse".toList]
    "house".toList houseAllCorrect ["house".toList] (by rfl)

/-! ### Claim C4 — probabilities over the pattern groups sum to 1 -/

/-- Total number of candidate words stored across the groups. -/
def groupSizes (l : List (GuessFeedback × List Word)) : Nat :=
  (l.map (fun p => p.2.length)).sum

/-- Inserting one target grows the total group size by exactly one. -/
theorem insertTarget_sizes : ∀ (acc : List (GuessFeedback × List Word))
    (fb : GuessFeedback) (w : Word),
    groupSizes (insertTarget acc fb w) = groupSizes acc + 1 := by
  intro acc
  induction acc with
  | nil =>
    intro fb w
    simp [insertTarget, groupSizes]
  | cons g rest ih =>
    intro fb w
    by_cases h : g.1 = fb
    · simp [insertTarget, h, groupSizes]
      ring
    · have hrec := ih fb w
      simp only [insertTarget, if_neg h, groupSizes, List.map_cons, List.sum_cons]
      simp only [groupSizes] at hrec
      omega

/-- Inserting one target keeps every group nonempty. -/
theorem insertTarget_nonempty : ∀ (acc : List (GuessFeedback × List Word))
    (fb : GuessFeedback) (w : Word),
    (∀ p ∈ acc, p.2 ≠ []) → ∀ p ∈ insertTarget acc fb w, p.2 ≠ [] := by
  intro acc
  induction acc with
  | nil =>
    intro fb w _ p hp
    simp only [insertTarget, List.mem_singleton] at hp
    subst hp
    simp
  | cons g rest ih =>
    intro fb w hacc p hp
    by_cases h : g.1 = fb
    · rw [insertTarget, if_pos h, List.mem_cons] at hp
      rcases hp with rfl | hp
      · simp
      · exact hacc p (List.mem_cons_of_mem g hp)
    · rw [insertTarget, if_neg h, List.mem_cons] at hp
      rcases hp with rfl | hp
      · exact hacc _ (List.mem_cons_self _ _)
      · exact ih fb w (fun q hq => hacc q (List.mem_cons_of_mem g hq)) p hp

/-- With a 5-letter guess and 5-letter candidates the grouping loop succeeds;
its output accounts for every candidate exactly once and every group it adds
is nonempty. -/
theorem groupTargets_ok (g : Word) (hg : g.length = 5) :
    ∀ (ws : List Word) (acc : List (GuessFeedback × List Word)),
    (∀ w ∈ ws, w.length = 5) →
    ∃ gr, groupTargets g ws acc = Except.ok gr ∧
      groupSizes gr = groupSizes acc + ws.length ∧
      ((∀ p ∈ acc, p.2 ≠ []) → ∀ p ∈ gr, p.2 ≠ []) := by
  intro ws
  induction ws with
  | nil =>
    intro acc _
    exact ⟨acc, rfl, by simp, fun h => h⟩
  | cons t rest ih =>
    intro acc hws
    have ht : t.length = 5 := hws t (List.mem_cons_self t rest)
    have hfb := calculateWordleFeedback_ok g t hg ht
    obtain ⟨gr, hgr, hsz, hne⟩ := ih (insertTarget acc
      (secondPass (t.map Char.toLower)
        (firstPass (g.map Char.toLower) (t.map Char.toLower) 0).1
        (firstPass (g.map Char.toLower) (t.map Char.toLower) 0).2) t)
      (fun w hw => hws w (List.mem_cons_of_mem t hw))
    refine ⟨gr, ?_, ?_, ?_⟩
    · simp only [groupTargets, hfb, exceptBind_ok]
      exact hgr
    · rw [hsz, insertTarget_sizes]
      simp [List.length_cons]
      ring
    · intro hacc
      exact hne (insertTarget_nonempty acc _ t hacc)

/-- Summing mapped values divided by a constant. -/
theorem sum_map_div {α : Type _} (l : List α) (f : α → ℚ) (c : ℚ) :
    (l.map (fun x => f x / c)).sum = (l.map f).sum / c := by
  induction l with
  | nil => simp
  | cons x rest ih =>
    simp only [List.map_cons, List.sum_cons, ih]
    rw [add_div]

/-- Summing mapped natural values cast to rationals. -/
theorem sum_map_natCast {α : Type _} (l : List α) (f : α → ℕ) :
    (l.map (fun x => ((f x : ℕ) : ℚ))).sum = (((l.map f).sum : ℕ) : ℚ) := by
  induction l with
  | nil => simp
  | cons x rest ih =>
    simp only [List.map_cons, List.sum_cons, ih]
    push_cast
    ring

/-- The presentation sort is a permutation of its input. -/
theorem sortByProbabilityDesc_perm (l : List GuessFeedbackInformations) :
    List.Perm (sortByProbabilityDesc l) l :=
  List.perm_insertionSort _ l

/-- The probability entries produced from a grouping whose sizes total `n`
sum to exactly 1. -/
theorem sum_of_group_probabilities (gr : List (GuessFeedback × List Word))
    (n : Nat) (hn : (n : ℚ) ≠ 0) (hsz : groupSizes gr = n) :
    ((sortByProbabilityDesc (gr.map (fun p =>
      ⟨p.1, (p.2.length : ℚ) / (n : ℚ),
        some (selfInformationOf ((p.2.length : ℚ) / (n : ℚ))), p.2⟩))).map
      GuessFeedbackInformations.probability).sum = 1 := by
  rw [List.Perm.sum_eq (List.Perm.map GuessFeedbackInformations.probability
    (sortByProbabilityDesc_perm _))]
  rw [List.map_map]
  have hcomp : (GuessFeedbackInformations.probability ∘ (fun p :
      GuessFeedback × List Word =>
      (⟨p.1, (p.2.length : ℚ) / (n : ℚ),
        some (selfInformationOf ((p.2.length : ℚ) / (n : ℚ))), p.2⟩ :
        GuessFeedbackInformations))) =
      (fun p : GuessFeedback × List Word => ((p.2.length : ℕ) : ℚ) / (n : ℚ)) := by
    funext p
    rfl
  rw [hcomp, sum_map_div, sum_map_natCast]
  rw [show (gr.map (fun p : GuessFeedback × List Word => p.2.length)).sum = n from hsz]
  exact div_self hn

/-- C4: for every 5-letter guess and nonempty set of 5-letter candidates,
`calculateLetterStateProbabilities` succeeds and the probabilities over all
returned pattern statistics sum to exactly 1 (in particular within the 1e-6
tolerance): each group has probability |group| / |candidates| and the groups
partition the candidate set. -/
theorem probabilities_sum_to_one (g : Word) (ws : List Word) (hg : g.length = 5)
    (hne : ws ≠ []) (hws : ∀ w ∈ ws, w.length = 5) :
    ∃ l, calculateLetterStateProbabilities g ws = Except.ok l ∧
      (l.map GuessFeedbackInformations.probability).sum = 1 ∧
      |(l.map GuessFeedbackInformations.probability).sum - 1| < 1 / 1000000 := by
  obtain ⟨gr, hgr, hsz, -⟩ := groupTargets_ok g hg ws [] hws
  have hn : ((ws.length : ℕ) : ℚ) ≠ 0 := by
    have h0 : ws.length ≠ 0 := fun h => hne (List.length_eq_zero.mp h)
    exact_mod_cast h0
  have hsz' : groupSizes gr = ws.length := by
    rw [hsz]
    simp [groupSizes]
  have hrun : calculateLetterStateProbabilities g ws =
      Except.ok (sortByProbabilityDesc (gr.map (fun p =>
        ⟨p.1, (p.2.length : ℚ) / ((ws.length : ℕ) : ℚ),
          some (selfInformationOf ((p.2.length : ℚ) / ((ws.length : ℕ) : ℚ))),
          p.2⟩))) := by
    simp only [calculateLetterStateProbabilities, hgr, exceptBind_ok]
  have hsum := sum_of_group_probabilities gr ws.length hn hsz'
  refine ⟨_, hrun, hsum, ?_⟩
  rw [hsum]
  norm_num

/-- Witness for C4 at concrete data: guess "slate" against the sole candidate
"house". -/
theorem probabilities_sum_to_one_witness :
    ∃ l, calculateLetterStateProbabilities "slate".toList ["house".toList] =
      Except.ok l ∧
      (l.map GuessFeedbackInformations.probability).sum = 1 ∧
      |(l.map GuessFeedbackInformations.probability).sum - 1| < 1 / 1000000 :=
  probabilities_sum_to_one "slate".toList ["house".toList] (by decide) (by decide)
    (by decide)

/-! ### Claim C5 — expected entropy is between 0 and log2 of the set size -/

/-- The contribution of one pattern-statistics entry to the average entropy
(the body of the loop in `calculateAverageEntropy`). -/
noncomputable def entropyTerm (item : GuessFeedbackInformations) : ℝ :=
  match item.selfInformation with
  | some s => (item.probability : ℝ) * s
  | none => 0

/-- The accumulator loop of `calculateAverageEntropy` is the sum of the
per-entry contributions. -/
theorem entropy_foldl_eq_sum : ∀ (l : List GuessFeedbackInformations) (a : ℝ),
    l.foldl (fun acc item => match item.selfInformation with
      | some s => acc + (item.probability : ℝ) * s
      | none => acc) a = a + (l.map entropyTerm).sum := by
  intro l
  induction l with
  | nil =>
    intro a
    simp
  | cons x rest ih =>
    intro a
    simp only [List.foldl_cons, List.map_cons, List.sum_cons, ih]
    cases hx : x.selfInformation with
    | none =>
      simp only [entropyTerm, hx]
      ring
    | some s =>
      simp only [entropyTerm, hx]
      ring

/-- An element of a list of naturals is at most the list sum. -/
theorem mem_le_sum (l : List ℕ) (x : ℕ) (hx : x ∈ l) : x ≤ l.sum := by
  induction l with
  | nil => cases hx
  | cons y rest ih =>
    rw [List.mem_cons] at hx
    rw [List.sum_cons]
    rcases hx with rfl | h
    · omega
    · have := ih h
      omega

/-- A positive probability at most 1 contributes a nonnegative entropy term. -/
theorem selfInformation_mul_nonneg (q : ℚ) (h0 : 0 < q) (h1 : q ≤ 1) :
    0 ≤ (q : ℝ) * selfInformationOf q := by
  have hq0 : (0 : ℝ) < (q : ℝ) := by exact_mod_cast h0
  have hq1 : ((q : ℝ)) ≤ 1 := by exact_mod_cast h1
  rw [selfInformationOf, if_pos h0]
  have hlog : Real.logb 2 (q : ℝ) ≤ 0 :=
    Real.logb_nonpos (by norm_num) (le_of_lt hq0) hq1
  exact mul_nonneg (le_of_lt hq0) (neg_nonneg.mpr hlog)

/-- A probability at least `1 / n` has self-information at most `log2 n`. -/
theorem selfInformation_le_logb (q : ℚ) (n : ℕ) (h0 : 0 < q) (hn : 0 < n)
    (hlow : 1 / (n : ℚ) ≤ q) :
    selfInformationOf q ≤ Real.logb 2 (n : ℝ) := by
  rw [selfInformationOf, if_pos h0]
  have hninv : (0 : ℝ) < ((n : ℝ))⁻¹ := by positivity
  have hlow' : ((n : ℝ))⁻¹ ≤ (q : ℝ) := by
    have h : ((1 / (n : ℚ) : ℚ) : ℝ) ≤ ((q : ℚ) : ℝ) := by exact_mod_cast hlow
    rw [Rat.cast_div] at h
    simpa [one_div] using h
  have hmono := Real.logb_le_logb_of_le (b := 2) (by norm_num) hninv hlow'
  rw [Real.logb_inv] at hmono
  linarith

/-- Factoring a constant out of a mapped real sum. -/
theorem sum_map_mul_const {α : Type _} (l : List α) (f : α → ℝ) (c : ℝ) :
    (l.map (fun x => f x * c)).sum = (l.map f).sum * c := by
  induction l with
  | nil => simp
  | cons x rest ih =>
    simp only [List.map_cons, List.sum_cons, ih]
    ring

/-- Casting a mapped rational sum into the reals. -/
theorem sum_map_ratCast {α : Type _} (l : List α) (f : α → ℚ) :
    (l.map (fun x => ((f x : ℚ) : ℝ))).sum = (((l.map f).sum : ℚ) : ℝ) := by
  induction l with
  | nil => simp
  | cons x rest ih =>
    simp only [List.map_cons, List.sum_cons, ih]
    push_cast
    ring

/-- C5: for every 5-letter guess and nonempty set of 5-letter candidates,
`calculateAverageEntropy` succeeds and its expected entropy lies between 0 and
log2 of the candidate count. -/
theorem expected_entropy_bounds (g : Word) (ws : List Word) (hg : g.length = 5)
    (hne : ws ≠ []) (hws : ∀ w ∈ ws, w.length = 5) :
    ∃ H, calculateAverageEntropy g ws = Except.ok H ∧
      0 ≤ H ∧ H ≤ Real.logb 2 (ws.length : ℝ) := by
  obtain ⟨gr, hgr, hsz, hnegr⟩ := groupTargets_ok g hg ws [] hws
  have hgrne : ∀ p ∈ gr, p.2 ≠ [] := hnegr (by simp)
  have hn : 0 < ws.length := List.length_pos.mpr hne
  have hn0 : ws.length ≠ 0 := Nat.pos_iff_ne_zero.mp hn
  have hnq : ((ws.length : ℕ) : ℚ) ≠ 0 := by exact_mod_cast hn0
  have hnq' : (0 : ℚ) < ((ws.length : ℕ) : ℚ) := by exact_mod_cast hn
  have hsz' : (gr.map (fun p => p.2.length)).sum = ws.length := by
    have h := hsz
    simp only [groupSizes] at h
    simpa using h
  have hrun : calculateLetterStateProbabilities g ws =
      Except.ok (sortByProbabilityDesc (gr.map (fun p =>
        ⟨p.1, (p.2.length : ℚ) / ((ws.length : ℕ) : ℚ),
          some (selfInformationOf ((p.2.length : ℚ) / ((ws.length : ℕ) : ℚ))),
          p.2⟩))) := by
    simp only [calculateLetterStateProbabilities, hgr, exceptBind_ok]
  have havg : calculateAverageEntropy g ws =
      Except.ok (0 + (((sortByProbabilityDesc (gr.map (fun p =>
        ⟨p.1, (p.2.length : ℚ) / ((ws.length : ℕ) : ℚ),
          some (selfInformationOf ((p.2.length : ℚ) / ((ws.length : ℕ) : ℚ))),
          p.2⟩)))).map entropyTerm).sum) := by
    simp only [calculateAverageEntropy, hrun, exceptBind_ok, entropy_foldl_eq_sum]
  have hitem : ∀ item ∈ sortByProbabilityDesc (gr.map (fun p =>
      (⟨p.1, (p.2.length : ℚ) / ((ws.length : ℕ) : ℚ),
        some (selfInformationOf ((p.2.length : ℚ) / ((ws.length : ℕ) : ℚ))),
        p.2⟩ : GuessFeedbackInformations))),
      0 ≤ entropyTerm item ∧
      entropyTerm item ≤ (item.probability : ℝ) * Real.logb 2 (ws.length : ℝ) := by
    intro item hmem0
    have hmem : item ∈ gr.map (fun p =>
        (⟨p.1, (p.2.length : ℚ) / ((ws.length : ℕ) : ℚ),
          some (selfInformationOf ((p.2.length : ℚ) / ((ws.length : ℕ) : ℚ))),
          p.2⟩ : GuessFeedbackInformations)) :=
      (sortByProbabilityDesc_perm _).subset hmem0
    rw [List.mem_map] at hmem
    obtain ⟨p, hp, rfl⟩ := hmem
    have hc1 : 0 < p.2.length := List.length_pos.mpr (hgrne p hp)
    have hcn : p.2.length ≤ ws.length := by
      have hmem2 : p.2.length ∈ gr.map (fun p => p.2.length) :=
        List.mem_map_of_mem _ hp
    
      have h := mem_le_sum _ _ hmem2
      omega
    have h0 : 0 < (p.2.length : ℚ) / ((ws.length : ℕ) : ℚ) := by
      apply div_pos _ hnq'
      exact_mod_cast hc1
    have h1 : (p.2.length : ℚ) / ((ws.length : ℕ) : ℚ) ≤ 1 := by
      rw [div_le_one hnq']
      exact_mod_cast hcn
    have hlow : 1 / ((ws.length : ℕ) : ℚ) ≤
        (p.2.length : ℚ) / ((ws.length : ℕ) : ℚ) := by
      rw [div_le_div_iff_of_pos_right hnq']
      exact_mod_cast hc1
    have hterm : entropyTerm (⟨p.1, (p.2.length : ℚ) / ((ws.length : ℕ) : ℚ),
        some (selfInformationOf ((p.2.length : ℚ) / ((ws.length : ℕ) : ℚ))),
        p.2⟩ : GuessFeedbackInformations) =
        (((p.2.length : ℚ) / ((ws.length : ℕ) : ℚ) : ℚ) : ℝ) *
          selfInformationOf ((p.2.length : ℚ) / ((ws.length : ℕ) : ℚ)) := rfl
    constructor
    · rw [hterm]
      exact selfInformation_mul_nonneg _ h0 h1
    · rw [hterm]
      have hle := selfInformation_le_logb _ ws.length h0 hn hlow
      have hq0 : (0 : ℝ) ≤ (((p.2.length : ℚ) / ((ws.length : ℕ) : ℚ) : ℚ) : ℝ) := by
        exact_mod_cast le_of_lt h0
      exact mul_le_mul_of_nonneg_left hle hq0
  refine ⟨_, havg, ?_, ?_⟩
  · have hnn : 0 ≤ ((sortByProbabilityDesc (gr.map (fun p =>
        ⟨p.1, (p.2.length : ℚ) / ((ws.length : ℕ) : ℚ),
          some (selfInformationOf ((p.2.length : ℚ) / ((ws.length : ℕ) : ℚ))),
          p.2⟩))).map entropyTerm).sum := by
      apply List.sum_nonneg
      intro x hx
      rw [List.mem_map] at hx
      obtain ⟨item, hitem', rfl⟩ := hx
      exact (hitem item hitem').1
    linarith
  · have hle : ((sortByProbabilityDesc (gr.map (fun p =>
        ⟨p.1, (p.2.length : ℚ) / ((ws.length : ℕ) : ℚ),
          some (selfInformationOf ((p.2.length : ℚ) / ((ws.length : ℕ) : ℚ))),
          p.2⟩))).map entropyTerm).sum ≤
        ((sortByProbabilityDesc (gr.map (fun p =>
          ⟨p.1, (p.2.length : ℚ) / ((ws.length : ℕ) : ℚ),
            some (selfInformationOf ((p.2.length : ℚ) / ((ws.length : ℕ) : ℚ))),
            p.2⟩))).map (fun item =>
              ((item.probability : ℚ) : ℝ) * Real.logb 2 (ws.length : ℝ))).sum :=
      List.sum_le_sum (fun item hmem => (hitem item hmem).2)
    have hfac : ((sortByProbabilityDesc (gr.map (fun p =>
        ⟨p.1, (p.2.length : ℚ) / ((ws.length : ℕ) : ℚ),
          some (selfInformationOf ((p.2.length : ℚ) / ((ws.length : ℕ) : ℚ))),
          p.2⟩))).map (fun item =>
            ((item.probability : ℚ) : ℝ) * Real.logb 2 (ws.length : ℝ))).sum =
        ((sortByProbabilityDesc (gr.map (fun p =>
          ⟨p.1, (p.2.length : ℚ) / ((ws.length : ℕ) : ℚ),
            some (selfInformationOf ((p.2.length : ℚ) / ((ws.length : ℕ) : ℚ))),
            p.2⟩))).map (fun item =>
              ((item.probability : ℚ) : ℝ))).sum * Real.logb 2 (ws.length : ℝ) :=
      sum_map_mul_const _ _ _
    have hcast : ((sortByProbabilityDesc (gr.map (fun p =>
        ⟨p.1, (p.2.length : ℚ) / ((ws.length : ℕ) : ℚ),
          some (selfInformationOf ((p.2.length : ℚ) / ((ws.length : ℕ) : ℚ))),
          p.2⟩))).map (fun item =>
            ((item.probability : ℚ) : ℝ))).sum = ((1 : ℚ) : ℝ) := by
      rw [sum_map_ratCast]
      have hq := sum_of_group_probabilities gr ws.length hnq (by
        simpa [groupSizes] using hsz')
      rw [hq]
    rw [hfac, hcast] at hle
    simpa using hle

/-- Witness for C5 at concrete data: guess "slate" against the sole candidate
"house". -/
theorem expected_entropy_bounds_witness :
    ∃ H, calculateAverageEntropy "slate".toList ["house".toList] =
      Except.ok H ∧ 0 ≤ H ∧
      H ≤ Real.logb 2 ((["house".toList] : List Word).length : ℝ) :=
  expected_entropy_bounds "slate".toList ["house".toList] (by decide) (by decide)
    (by decide)

/-! ### Claim C10 — the first attempt always guesses SLATE -/

/-- Inversion for `Except.map`: a successful map comes from a success. -/
theorem map_eq_ok_iff {ε α β : Type _} (x : Except ε α) (f : α → β) (b : β) :
    x.map f = Except.ok b ↔ ∃ a, x = Except.ok a ∧ f a = b := by
  cases x with
  | ok a =>
    constructor
    · intro h
      injection h with h
      exact ⟨a, rfl, h⟩
    · rintro ⟨a', ha', hf⟩
      injection ha' with ha'
      subst ha'
      simpa [Except.map] using hf
  | error e =>
    constructor
    · intro h
      exact absurd h (by simp [Except.map])
    · rintro ⟨a', ha', _⟩
      cases ha'

/-- Inversion for `Except.map`: a failed map comes from the same failure. -/
theorem map_eq_error_iff {ε α β : Type _} (x : Except ε α) (f : α → β) (e : ε) :
    x.map f = Except.error e ↔ x = Except.error e := by
  cases x with
  | ok a => simp [Except.map]
  | error e' => simp [Except.map]

/-- Attempts already recorded are preserved by the solve loop: the result
extends the accumulator. -/
theorem solveLoop_ok_prefix (wl : List Word) (t : Word) : ∀ (fuel k : Nat)
    (hist : List GuessWithFeedback) (acc res : List GuessAttempt) (s : Bool),
    solveLoop wl t fuel k hist acc = Except.ok (res, s) →
    ∃ suffix, res = acc ++ suffix := by
  intro fuel
  induction fuel with
  | zero =>
    intro k hist acc res s h
    simp only [solveLoop] at h
    injection h with h
    cases h
    exact ⟨[], by simp⟩
  | succ fuel ih =>
    intro k hist acc res s h
    simp only [solveLoop] at h
    rw [bind_eq_ok_iff] at h
    obtain ⟨avail, -, h⟩ := h
    rw [bind_eq_ok_iff] at h
    obtain ⟨guess, -, h⟩ := h
    rw [bind_eq_ok_iff] at h
    obtain ⟨fb, -, h⟩ := h
    by_cases hs : isCorrectGuess fb = true
    · rw [if_pos hs, exceptBind_ok, if_pos hs] at h
      injection h with h
      cases h
      exact ⟨[⟨guess.map Char.toUpper, fb, 0⟩], rfl⟩
    · rw [if_neg hs] at h
      rw [bind_eq_ok_iff] at h
      obtain ⟨after, -, h⟩ := h
      rw [exceptBind_ok, if_neg hs] at h
      obtain ⟨suffix, hsuf⟩ := ih _ _ _ _ _ h
      exact ⟨[⟨guess.map Char.toUpper, fb, after.length⟩] ++ suffix, by
        rw [hsuf, List.append_assoc]⟩

/-- C10: whenever `solve` returns a trace and at least one attempt was
allowed, the first recorded attempt guesses the hardcoded opening word,
recorded uppercased as "SLATE" — there is no parameter to omit or replace it
and no entropy scoring happens on attempt 0. -/
theorem first_attempt_guess_is_slate (wl : List Word) (t : Word) (n : Nat)
    (r : SolveResult) (hn : 0 < n) (h : solve wl t n = Except.ok r) :
    ∃ a rest, r.attempts = a :: rest ∧ a.guess = "SLATE".toList := by
  unfold solve at h
  by_cases hlen : t.length ≠ 5
  · rw [if_pos hlen] at h
    cases h
  · rw [if_neg hlen] at h
    rw [map_eq_ok_iff] at h
    obtain ⟨⟨res, s⟩, hloop, hr⟩ := h
    obtain ⟨n', rfl⟩ : ∃ m, n = m + 1 := ⟨n - 1, by omega⟩
    simp only [solveLoop, getAvailableWordsFromMultipleFeedbacks,
      List.isEmpty_nil, if_true, exceptBind_ok, selectBestGuess,
      eq_self_iff_true] at hloop
    rw [bind_eq_ok_iff] at hloop
    obtain ⟨fb, hfb, hloop⟩ := hloop
    by_cases hs : isCorrectGuess fb = true
    · rw [if_pos hs, if_pos hs] at hloop
      injection hloop with hloop
      cases hloop
      refine ⟨⟨optimalFirstGuess.map Char.toUpper, fb, 0⟩, [], ?_, ?_⟩
      · rw [← hr]
        simp
      · rfl
    · rw [if_neg hs] at hloop
      rw [bind_eq_ok_iff] at hloop
      obtain ⟨after, -, hloop⟩ := hloop
      rw [if_neg hs] at hloop
      obtain ⟨suffix, hsuf⟩ := solveLoop_ok_prefix _ _ _ _ _ _ _ _ hloop
      refine ⟨⟨optimalFirstGuess.map Char.toUpper, fb, after.length⟩, suffix,
        ?_, ?_⟩
      · rw [← hr]
        simp [hsuf]
      · rfl

/-- The all-correct feedback of the word "slate" against itself. -/
def slateAllCorrect : GuessFeedback :=
  [⟨'s', LetterState.correct⟩, ⟨'l', LetterState.correct⟩,
   ⟨'a', LetterState.correct⟩, ⟨'t', LetterState.correct⟩,
   ⟨'e', LetterState.correct⟩]

/-- Witness for C10 at concrete data: solving for "slate" itself with one
attempt records "SLATE" as the first guess. -/
theorem first_attempt_guess_is_slate_witness :
    ∃ a rest, (⟨[⟨"SLATE".toList, slateAllCorrect, 0⟩], true,
      "SLATE".toList⟩ : SolveResult).attempts = a :: rest ∧
      a.guess = "SLATE".toList :=
  first_attempt_guess_is_slate ["slate".toList] "slate".toList 1 _ (by decide)
    (by rfl)

/-! ### Claim C2 — remaining candidate count vs all-correct feedback -/

/-- C2 counterexample: with the (spec-conformant) word list ["abcde"] and the
5-letter target "zzzzz" that lies outside the list, the single recorded
attempt has `remainingWords = 0` while its feedback is not all-Correct — so
`remainingCandidateCount = 0` does NOT imply that the feedback is
all-Correct. -/
theorem remaining_zero_without_correct_counterexample :
    (solve ["abcde".toList] "zzzzz".toList 1).map
      (fun r => r.attempts.map (fun a => (a.remainingWords,
        isCorrectGuess a.feedback))) = Except.ok [(0, false)] := by rfl

/-- The filter keeps any word whose own feedback is the recorded pattern; in
particular it keeps the true target. -/
theorem filterWordsByFeedback_mem : ∀ (ws : List Word) (g tw : Word)
    (fb : GuessFeedback) (ws' : List Word),
    calculateWordleFeedback g tw = Except.ok fb → tw ∈ ws →
    filterWordsByFeedback ws g fb = Except.ok ws' → tw ∈ ws' := by
  intro ws
  induction ws with
  | nil =>
    intro g tw fb ws' _ hmem _
    cases hmem
  | cons x rest ih =>
    intro g tw fb ws' hcalc hmem h
    simp only [filterWordsByFeedback] at h
    rw [bind_eq_ok_iff] at h
    obtain ⟨tf, htf, h⟩ := h
    rw [bind_eq_ok_iff] at h
    obtain ⟨others, hothers, h⟩ := h
    rw [List.mem_cons] at hmem
    by_cases hm : feedbackStatesMatch tf fb = true
    · rw [if_pos hm] at h
      injection h with h
      subst h
      rcases hmem with rfl | hmem
      · exact List.mem_cons_self _ _
      · exact List.mem_cons_of_mem _ (ih g tw fb others hcalc hmem hothers)
    · rw [if_neg hm] at h
      injection h with h
      subst h
      rcases hmem with rfl | hmem
      · exfalso
        rw [hcalc] at htf
        injection htf with htf
        subst htf
        exact hm (by simp [feedbackStatesMatch])
      · exact ih g tw fb others hcalc hmem hothers

/-- Progressive filtering by a history of feedbacks that the target itself
produced keeps the target. -/
theorem applyFeedbacks_mem : ∀ (hist : List GuessWithFeedback)
    (ws ws' : List Word) (tw : Word),
    (∀ e ∈ hist, calculateWordleFeedback e.guess tw = Except.ok e.feedback) →
    tw ∈ ws → applyFeedbacks ws hist = Except.ok ws' → tw ∈ ws' := by
  intro hist
  induction hist with
  | nil =>
    intro ws ws' tw _ hmem h
    simp only [applyFeedbacks] at h
    injection h with h
    subst h
    exact hmem
  | cons gwf rest ih =>
    intro ws ws' tw hhist hmem h
    simp only [applyFeedbacks] at h
    rw [bind_eq_ok_iff] at h
    obtain ⟨ws1, hws1, h⟩ := h
    have hmem1 : tw ∈ ws1 :=
      filterWordsByFeedback_mem ws gwf.guess tw gwf.feedback ws1
        (hhist gwf (List.mem_cons_self _ _)) hmem hws1
    have hne : ws1.isEmpty ≠ true := by
      cases ws1 with
      | nil => cases hmem1
      | cons a b => simp
    rw [if_neg hne] at h
    exact ih ws1 ws' tw (fun e he => hhist e (List.mem_cons_of_mem _ he)) hmem1 h

/-- Candidate narrowing by a target-consistent history keeps the target. -/
theorem getAvailableWords_mem (wl : List Word) (hist : List GuessWithFeedback)
    (ws' : List Word) (tw : Word)
    (hhist : ∀ e ∈ hist, calculateWordleFeedback e.guess tw = Except.ok e.feedback)
    (hmem : tw ∈ wl)
    (h : getAvailableWordsFromMultipleFeedbacks wl hist = Except.ok ws') :
    tw ∈ ws' := by
  unfold getAvailableWordsFromMultipleFeedbacks at h
  by_cases he : hist.isEmpty = true
  · rw [if_pos he] at h
    injection h with h
    subst h
    exact hmem
  · rw [if_neg he] at h
    exact applyFeedbacks_mem hist wl ws' tw hhist hmem h

/-- Loop invariant for the amended C2: when the (lowercased) target belongs to
the word list, every attempt the loop records has `remainingWords = 0` exactly
when its feedback is all-correct. -/
theorem solveLoop_remaining_iff (wl : List Word) (t : Word) (hmem : t ∈ wl) :
    ∀ (fuel k : Nat) (hist : List GuessWithFeedback) (acc : List GuessAttempt),
    (∀ e ∈ hist, calculateWordleFeedback e.guess t = Except.ok e.feedback) →
    (∀ a ∈ acc, (a.remainingWords = 0 ↔ isCorrectGuess a.feedback = true)) →
    ∀ res s, solveLoop wl t fuel k hist acc = Except.ok (res, s) →
    ∀ a ∈ res, (a.remainingWords = 0 ↔ isCorrectGuess a.feedback = true) := by
  intro fuel
  induction fuel with
  | zero =>
    intro k hist acc hhist hacc res s h
    simp only [solveLoop] at h
    injection h with h
    cases h
    exact hacc
  | succ fuel ih =>
    intro k hist acc hhist hacc res s h
    simp only [solveLoop] at h
    rw [bind_eq_ok_iff] at h
    obtain ⟨avail, havail, h⟩ := h
    rw [bind_eq_ok_iff] at h
    obtain ⟨guess, hguess, h⟩ := h
    rw [bind_eq_ok_iff] at h
    obtain ⟨fb, hfb, h⟩ := h
    by_cases hs : isCorrectGuess fb = true
    · rw [if_pos hs, exceptBind_ok, if_pos hs] at h
      injection h with h
      cases h
      intro a ha
      rw [List.mem_append] at ha
      rcases ha with ha | ha
      · exact hacc a ha
      · rw [List.mem_singleton] at ha
        subst ha
        simp [hs]
    · rw [if_neg hs] at h
      rw [bind_eq_ok_iff] at h
      obtain ⟨after, hafter, h⟩ := h
      rw [exceptBind_ok, if_neg hs] at h
      have hhist' : ∀ e ∈ hist ++ [⟨guess, fb⟩],
          calculateWordleFeedback e.guess t = Except.ok e.feedback := by
        intro e he
        rw [List.mem_append, List.mem_singleton] at he
        rcases he with he | rfl
        · exact hhist e he
        · exact hfb
      have hmem' : t ∈ after := getAvailableWords_mem wl _ after t hhist' hmem hafter
      have hlen : after.length ≠ 0 := by
        cases after with
        | nil => cases hmem'
        | cons x xs => simp
      refine ih (k + 1) (hist ++ [⟨guess, fb⟩]) _ hhist' ?_ res s h
      intro a ha
      rw [List.mem_append] at ha
      rcases ha with ha | ha
      · exact hacc a ha
      · rw [List.mem_singleton] at ha
        subst ha
        constructor
        · intro h0
          exact absurd h0 hlen
        · intro hc
          exact absurd hc hs

/-- C2 amended: in every trace `solve` returns, all-Correct feedback forces
`remainingWords = 0` (the code writes 0 directly when solved), and — provided
the lowercased target belongs to the word list — the converse also holds, so
`remainingWords = 0` iff the attempt feedback is all-Correct.  For targets
outside the word list only the forward direction survives (see the
counterexample). -/
theorem remaining_zero_iff_correct (wl : List Word) (t : Word) (n : Nat)
    (r : SolveResult) (hmem : t.map Char.toLower ∈ wl)
    (h : solve wl t n = Except.ok r) :
    ∀ a ∈ r.attempts,
      (a.remainingWords = 0 ↔ isCorrectGuess a.feedback = true) := by
  unfold solve at h
  by_cases hlen : t.length ≠ 5
  · rw [if_pos hlen] at h
    cases h
  · rw [if_neg hlen] at h
    rw [map_eq_ok_iff] at h
    obtain ⟨⟨res, s⟩, hloop, hr⟩ := h
    intro a ha
    have hres := solveLoop_remaining_iff wl (t.map Char.toLower) hmem n 0 [] []
      (by intro e he; cases he) (by intro a' ha'; cases ha') res s hloop
    apply hres
    rw [← hr] at ha
    exact ha

/-- Witness for the amended C2 at concrete data: solving for "slate" over the
word list ["slate"] records the attempt ("SLATE", all-correct, 0 remaining),
and 0 = 0 holds exactly because the feedback is all-correct. -/
theorem remaining_zero_iff_correct_witness :
    ((⟨"SLATE".toList, slateAllCorrect, 0⟩ : GuessAttempt).remainingWords = 0 ↔
      isCorrectGuess
        (⟨"SLATE".toList, slateAllCorrect, 0⟩ : GuessAttempt).feedback = true) :=
  remaining_zero_iff_correct ["slate".toList] "slate".toList 1
    ⟨[⟨"SLATE".toList, slateAllCorrect, 0⟩], true, "SLATE".toList⟩
    (by decide) (by rfl) _ (by simp)

/-! ### Claim C8 — length precondition enforcement -/

/-- With a 5-letter guess and 5-letter candidates the filter succeeds and
returns a sublist. -/
theorem filterWordsByFeedback_total : ∀ (ws : List Word) (g : Word)
    (fb : GuessFeedback), g.length = 5 → (∀ w ∈ ws, w.length = 5) →
    ∃ ws', filterWordsByFeedback ws g fb = Except.ok ws' ∧
      ∀ w ∈ ws', w ∈ ws := by
  intro ws
  induction ws with
  | nil =>
    intro g fb _ _
    exact ⟨[], rfl, by simp⟩
  | cons x rest ih =>
    intro g fb hg hws
    obtain ⟨tf, htf⟩ : ∃ tf, calculateWordleFeedback g x = Except.ok tf :=
      ⟨_, calculateWordleFeedback_ok g x hg (hws x (List.mem_cons_self _ _))⟩
    obtain ⟨others, hothers, hsub⟩ :=
      ih g fb hg (fun w hw => hws w (List.mem_cons_of_mem _ hw))
    simp only [filterWordsByFeedback, htf, hothers, exceptBind_ok]
    by_cases hm : feedbackStatesMatch tf fb = true
    · rw [if_pos hm]
      refine ⟨x :: others, rfl, ?_⟩
      intro w hw
      rw [List.mem_cons] at hw
      rcases hw with rfl | hw
      · exact List.mem_cons_self _ _
      · exact List.mem_cons_of_mem _ (hsub w hw)
    · rw [if_neg hm]
      exact ⟨others, rfl, fun w hw => List.mem_cons_of_mem _ (hsub w hw)⟩

/-- With 5-letter history guesses and candidates the progressive filter loop
succeeds and returns a sublist. -/
theorem applyFeedbacks_total : ∀ (hist : List GuessWithFeedback)
    (ws : List Word), (∀ e ∈ hist, e.guess.length = 5) →
    (∀ w ∈ ws, w.length = 5) →
    ∃ ws', applyFeedbacks ws hist = Except.ok ws' ∧ ∀ w ∈ ws', w ∈ ws := by
  intro hist
  induction hist with
  | nil =>
    intro ws _ _
    exact ⟨ws, rfl, fun w hw => hw⟩
  | cons gwf rest ih =>
    intro ws hhist hws
    obtain ⟨ws1, hws1, hsub1⟩ := filterWordsByFeedback_total ws gwf.guess
      gwf.feedback (hhist gwf (List.mem_cons_self _ _)) hws
    simp only [applyFeedbacks, hws1, exceptBind_ok]
    by_cases he : ws1.isEmpty = true
    · rw [if_pos he]
      exact ⟨[], rfl, by simp⟩
    · rw [if_neg he]
      obtain ⟨ws', hws', hsub⟩ := ih ws1
        (fun e hme => hhist e (List.mem_cons_of_mem _ hme))
        (fun w hw => hws w (hsub1 w hw))
      exact ⟨ws', hws', fun w hw => hsub1 _ (hsub w hw)⟩

/-- Candidate narrowing by a well-formed history over a well-formed word list
succeeds and returns a sublist of the word list. -/
theorem getAvailableWords_total (wl : List Word)
    (hist : List GuessWithFeedback)
    (hhist : ∀ e ∈ hist, e.guess.length = 5)
    (hwl : ∀ w ∈ wl, w.length = 5) :
    ∃ ws', getAvailableWordsFromMultipleFeedbacks wl hist = Except.ok ws' ∧
      ∀ w ∈ ws', w ∈ wl := by
  unfold getAvailableWordsFromMultipleFeedbacks
  by_cases he : hist.isEmpty = true
  · rw [if_pos he]
    exact ⟨wl, rfl, fun w hw => hw⟩
  · rw [if_neg he]
    exact applyFeedbacks_total hist wl hhist hwl

/-- With a 5-letter guess and 5-letter candidates the entropy computation
succeeds. -/
theorem calculateAverageEntropy_total (g : Word) (ws : List Word)
    (hg : g.length = 5) (hws : ∀ w ∈ ws, w.length = 5) :
    ∃ H, calculateAverageEntropy g ws = Except.ok H := by
  obtain ⟨gr, hgr, -, -⟩ := groupTargets_ok g hg ws [] hws
  simp only [calculateAverageEntropy, calculateLetterStateProbabilities, hgr,
    exceptBind_ok]
  exact ⟨_, rfl⟩

/-- The scan inside `findHighestEntropyGuess` always succeeds over a
well-formed pool, and its best word is either the sentinel or a pool word. -/
theorem entropy_fold_total (ws : List Word) (hws : ∀ w ∈ ws, w.length = 5) :
    ∀ (l : List Word), (∀ w ∈ l, w ∈ ws) → ∀ (acc : Word × ℝ),
    acc.1 = [] ∨ acc.1 ∈ ws →
    ∃ res, List.foldlM (fun (acc : Word × ℝ) w => do
        let entropy ← calculateAverageEntropy w ws
        if acc.2 < entropy then Except.ok (w, entropy) else Except.ok acc)
      acc l = Except.ok res ∧ (res.1 = [] ∨ res.1 ∈ ws) := by
  intro l
  induction l with
  | nil =>
    intro _ acc hacc
    exact ⟨acc, rfl, hacc⟩
  | cons w rest ih =>
    intro hl acc hacc
    obtain ⟨H, hH⟩ := calculateAverageEntropy_total w ws
      (hws w (hl w (List.mem_cons_self _ _))) hws
    rw [List.foldlM_cons]
    simp only [hH, exceptBind_ok]
    by_cases hlt : acc.2 < H
    · rw [if_pos hlt, exceptBind_ok]
      exact ih (fun w' hw' => hl w' (List.mem_cons_of_mem _ hw')) (w, H)
        (Or.inr (hl w (List.mem_cons_self _ _)))
    · rw [if_neg hlt, exceptBind_ok]
      exact ih (fun w' hw' => hl w' (List.mem_cons_of_mem _ hw')) acc hacc

/-- Over a well-formed pool, `findHighestEntropyGuess` either fails with the
no-valid-words error or returns a guess from the pool. -/
theorem findHighestEntropyGuess_cases (ws : List Word)
    (hws : ∀ w ∈ ws, w.length = 5) :
    findHighestEntropyGuess ws = Except.error noValidWordsMsg ∨
    ∃ r, findHighestEntropyGuess ws = Except.ok r ∧ r.guess ∈ ws := by
  obtain ⟨res, hres, hmem⟩ := entropy_fold_total ws hws ws (fun w hw => hw)
    (([] : Word), (-1 : ℝ)) (Or.inl rfl)
  unfold findHighestEntropyGuess
  simp only [hres, exceptBind_ok]
  by_cases hb : res.1 = []
  · rw [if_pos hb]
    exact Or.inl rfl
  · rw [if_neg hb]
    right
    refine ⟨⟨res.1, res.2⟩, rfl, ?_⟩
    rcases hmem with h | h
    · exact absurd h hb
    · exact h

/-- Over a well-formed candidate set, `selectBestGuess` either fails with the
no-valid-words error or returns the fixed opening or a candidate. -/
theorem selectBestGuess_cases (k : Nat) (avail : List Word)
    (hws : ∀ w ∈ avail, w.length = 5) :
    selectBestGuess k avail = Except.error noValidWordsMsg ∨
    ∃ g', selectBestGuess k avail = Except.ok g' ∧
      (g' = optimalFirstGuess ∨ g' ∈ avail) := by
  unfold selectBestGuess
  by_cases hk : k = 0
  · rw [if_pos hk]
    exact Or.inr ⟨optimalFirstGuess, rfl, Or.inl rfl⟩
  · rw [if_neg hk]
    rcases avail with _ | ⟨w1, _ | ⟨w2, rest⟩⟩
    · left
      rfl
    · exact Or.inr ⟨w1, rfl, Or.inr (by simp)⟩
    · rcases findHighestEntropyGuess_cases (w1 :: w2 :: rest) hws with h | ⟨r, hr, hrmem⟩
      · left
        show (findHighestEntropyGuess (w1 :: w2 :: rest) >>= fun best =>
          Except.ok best.guess) = Except.error noValidWordsMsg
        rw [h]
        rfl
      · right
        refine ⟨r.guess, ?_, Or.inr hrmem⟩
        show (findHighestEntropyGuess (w1 :: w2 :: rest) >>= fun best =>
          Except.ok best.guess) = Except.ok r.guess
        rw [hr]
        rfl

/-- With a 5-letter target and a well-formed word list, the only error the
solve loop can produce is the no-valid-words error raised by guess
selection. -/
theorem solveLoop_error_msg (wl : List Word) (t : Word) (ht : t.length = 5)
    (hwl : ∀ w ∈ wl, w.length = 5) : ∀ (fuel k : Nat)
    (hist : List GuessWithFeedback) (acc : List GuessAttempt),
    (∀ e ∈ hist, e.guess.length = 5) →
    ∀ m, solveLoop wl t fuel k hist acc = Except.error m →
    m = noValidWordsMsg := by
  intro fuel
  induction fuel with
  | zero =>
    intro k hist acc _ m h
    simp only [solveLoop] at h
    cases h
  | succ fuel ih =>
    intro k hist acc hhist m h
    simp only [solveLoop] at h
    obtain ⟨avail, havail, hsub⟩ := getAvailableWords_total wl hist hhist hwl
    rw [havail, exceptBind_ok] at h
    have hlen : ∀ w ∈ avail, w.length = 5 := fun w hw => hwl w (hsub w hw)
    rcases selectBestGuess_cases k avail hlen with hsel | ⟨g', hsel, hg'⟩
    · rw [hsel, exceptBind_error] at h
      injection h with h
      exact h.symm
    · rw [hsel, exceptBind_ok] at h
      have hg5 : g'.length = 5 := by
        rcases hg' with rfl | hg'
        · decide
        · exact hlen g' hg'
      obtain ⟨fb, hfb⟩ : ∃ fb, calculateWordleFeedback g' t = Except.ok fb :=
        ⟨_, calculateWordleFeedback_ok g' t hg5 ht⟩
      rw [hfb, exceptBind_ok] at h
      have hhist' : ∀ e ∈ hist ++ [⟨g', fb⟩], e.guess.length = 5 := by
        intro e he
        rw [List.mem_append, List.mem_singleton] at he
        rcases he with he | rfl
        · exact hhist e he
        · exact hg5
      by_cases hs : isCorrectGuess fb = true
      · rw [if_pos hs, exceptBind_ok, if_pos hs] at h
        cases h
      · rw [if_neg hs] at h
        obtain ⟨after, hafter, -⟩ := getAvailableWords_total wl _ hhist' hwl
        rw [hafter, exceptBind_ok, exceptBind_ok, if_neg hs] at h
        exact ih (k + 1) _ _ hhist' m h

/-- C8: the length preconditions are enforced: `calculateWordleFeedback`
fails with the length error exactly when the guess or the target is not 5
letters; `solve` fails with the target-length error, before any attempt,
whenever its target is not 5 letters; and for a 5-letter target over a word
list of 5-letter words the only error `solve` can ever produce is the
distinct no-valid-words error, so neither function raises a length error on
5-letter inputs. -/
theorem length_precondition_enforced :
    (∀ g t : Word, (g.length ≠ 5 ∨ t.length ≠ 5) →
      calculateWordleFeedback g t = Except.error lengthErrorMsg) ∧
    (∀ g t : Word, g.length = 5 → t.length = 5 →
      ∃ fb, calculateWordleFeedback g t = Except.ok fb) ∧
    (∀ (wl : List Word) (t : Word) (n : Nat), t.length ≠ 5 →
      solve wl t n = Except.error targetLengthErrorMsg) ∧
    (∀ (wl : List Word) (t : Word) (n : Nat), t.length = 5 →
      (∀ w ∈ wl, w.length = 5) → ∀ m, solve wl t n = Except.error m →
      m = noValidWordsMsg) ∧
    noValidWordsMsg ≠ lengthErrorMsg ∧
    noValidWordsMsg ≠ targetLengthErrorMsg := by
  refine ⟨?_, ?_, ?_, ?_, by decide, by decide⟩
  · exact fun g t h => calculateWordleFeedback_error g t h
  · intro g t hg ht
    exact ⟨_, calculateWordleFeedback_ok g t hg ht⟩
  · intro wl t n h
    unfold solve
    rw [if_pos h]
  · intro wl t n ht hwl m h
    unfold solve at h
    rw [if_neg (by simp [ht])] at h
    rw [map_eq_error_iff] at h
    exact solveLoop_error_msg wl (t.map Char.toLower) (by simp [ht]) hwl n 0
      [] [] (by intro e he; cases he) m h

/-- Witness for C8 at concrete data: a 4-letter guess fails with the length
error, 5-letter inputs succeed, a 4-letter target makes `solve` fail with the
target-length error, and a run of `solve` that does error (word list
exhausted) carries the distinct no-valid-words message. -/
theorem length_precondition_enforced_witness :
    calculateWordleFeedback "abcd".toList "house".toList =
      Except.error lengthErrorMsg ∧
    (∃ fb, calculateWordleFeedback "slate".toList "house".toList =
      Except.ok fb) ∧
    solve [] "abcd".toList 3 = Except.error targetLengthErrorMsg ∧
    noValidWordsMsg = noValidWordsMsg :=
  ⟨length_precondition_enforced.1 "abcd".toList "house".toList
      (Or.inl (by decide)),
   length_precondition_enforced.2.1 "slate".toList "house".toList (by decide)
      (by decide),
   length_precondition_enforced.2.2.1 [] "abcd".toList 3 (by decide),
   length_precondition_enforced.2.2.2.1 ["abcde".toList] "zzzzz".toList 2
      (by decide) (by decide) noValidWordsMsg (by rfl)⟩
